import Mathlib

/-!
# CipherShip — verification of the token codec and QR lifecycle core

Shallow embedding of the encryption utilities, the encryption service, the QR
code service/controller, the package status controller and the relevant model
hooks of the CipherShip repository, together with proofs and refutations of
the specification's claims about them.

Modelling conventions:

* Bytes are natural numbers kept below 256; byte strings are `List Nat`.
  The hex/base64 transport encodings of the JavaScript code are bijections
  between byte strings and their textual form and are elided: record fields
  hold the underlying byte strings directly.
* The AES-256-GCM and AES-256-CBC primitives of node's `crypto` module are
  external library code.  They are modelled at the mode level: the keystream
  (GCM) and the block permutation (CBC) are concrete executable key-dependent
  functions, the GHASH authentication tag of GCM is a polynomial MAC over the
  prime field `ZMod 257`, and CBC uses the real PKCS#7 padding discipline.
  All mode-level structure that the claims depend on (XOR keystream, tag
  check before release of plaintext, block chaining, padding validation) is
  preserved faithfully.
* Fallible JavaScript code (functions that `throw`) is modelled with
  `Option`/`Except`; mongoose persistence is modelled as explicit state
  (lists of documents) threaded through the operations.
-/

namespace CipherShip

/-- Byte strings: lists of naturals (each below 256 where it matters). -/
abbrev Bytes := List Nat

/-- Pointwise XOR of two byte strings (`zipWith`, truncating to the shorter). -/
def xorBytes (a b : Bytes) : Bytes := List.zipWith (fun x y => x ^^^ y) a b

theorem xorBytes_length (a b : Bytes) : (xorBytes a b).length = min a.length b.length := by
  simp [xorBytes]

theorem xorBytes_cancel : ∀ (a b : Bytes), a.length ≤ b.length → xorBytes (xorBytes a b) b = a := by
  intro a
  induction a with
  | nil => intro b _; simp [xorBytes]
  | cons x xs ih =>
    intro b hb
    cases b with
    | nil => simp at hb
    | cons y ys =>
      simp only [List.length_cons, Nat.succ_le_succ_iff] at hb
      have h2 := ih ys hb
      simp only [xorBytes, List.zipWith_cons_cons] at h2 ⊢
      rw [Nat.xor_cancel_right, h2]

/-- A simple executable mixing fold over a byte string, used as the key- and
iv-dependent seed of the modelled cipher primitives. -/
def byteFold (l : Bytes) : Nat := l.foldl (fun a b => (a * 131 + b + 1) % 65536) 7

end CipherShip

namespace CipherShip

/-! ## `src/backend/src/utils/encryption.js` — the AEAD codec

`encryptAES(data, key, iv)` encrypts with AES-256-GCM under the hex `key` and
the 16-byte `iv` (freshly random when not supplied) and returns
`{ encryptedData, iv, authTag }`; `decryptAES(encryptedData, key, iv, authTag)`
sets the expected tag and throws on any mismatch, returning the plaintext only
after the tag verifies. -/

/-- The envelope returned by `encryptAES`: ciphertext, iv and authentication
tag (the tag is the value of the polynomial MAC, an element of `Fin 257`
represented by its numeral). -/
structure Envelope where
  encryptedData : Bytes
  iv : Bytes
  authTag : Nat
deriving Repr, DecidableEq

/-- Modelled from the external `crypto` library: byte `i` of the AES-256-GCM
keystream for `key`/`iv`, idealised as an executable mixing function.  The
round-trip and tamper-detection properties proved below depend only on the
keystream being a function of `(key, iv, i)` with byte range. -/
def gcmKeystream (key iv : Bytes) (i : Nat) : Nat :=
  (byteFold key + 37 * byteFold iv + 151 * i) % 256

/-- The first `n` keystream bytes. -/
def ksList (key iv : Bytes) (n : Nat) : Bytes :=
  (List.range n).map (gcmKeystream key iv)

theorem ksList_length (key iv : Bytes) (n : Nat) : (ksList key iv n).length = n := by
  simp [ksList]

instance fact_prime_257 : Fact (Nat.Prime 257) := ⟨by norm_num⟩

/-- Modelled from the external `crypto` library: the GHASH point of AES-256-GCM
for `key`, a nonzero element of the prime field `ZMod 257` (GHASH evaluates a
polynomial at a secret point derived from the key; primality of the modulus
gives the absence of zero divisors that the tag-forgery argument needs). -/
def gcmH (key : Bytes) : ZMod 257 := ((byteFold key % 256 + 1 : Nat) : ZMod 257)

/-- One Horner step of the tag polynomial: absorb byte `b` and multiply by `h`. -/
def ghashStep (h : ZMod 257) (acc : ZMod 257) (b : Nat) : ZMod 257 :=
  (acc + (b : ZMod 257)) * h

/-- Horner evaluation of the tag polynomial at `h` over the absorbed bytes. -/
def ghash (h : ZMod 257) (c : Bytes) : ZMod 257 :=
  c.foldl (ghashStep h) 0

/-- The authentication tag over iv and ciphertext under `key`. -/
def tagOf (key iv data : Bytes) : Nat := (ghash (gcmH key) (iv ++ data)).val

/-- `encryptAES(data, key, iv)` of `utils/encryption.js`: GCM-encrypt `data`
and return the envelope `{ encryptedData, iv, authTag }`.  The `iv` argument
is the fresh random IV that the JavaScript generates with `generateIV()` when
none is passed. -/
def encryptAES (data key iv : Bytes) : Envelope :=
  let c := xorBytes data (ksList key iv data.length)
  { encryptedData := c, iv := iv, authTag := tagOf key iv c }

/-- `decryptAES(encryptedData, key, iv, authTag)` of `utils/encryption.js`:
verify the authentication tag and return the plaintext, or throw (`none`) on
mismatch. -/
def decryptAES (env : Envelope) (key : Bytes) : Option Bytes :=
  if tagOf key env.iv env.encryptedData = env.authTag then
    some (xorBytes env.encryptedData (ksList key env.iv env.encryptedData.length))
  else
    none

theorem decryptAES_encryptAES (data key iv : Bytes) :
    decryptAES (encryptAES data key iv) key = some data := by
  simp only [encryptAES, decryptAES, if_pos rfl, if_true, Option.some.injEq]
  have hlen : (xorBytes data (ksList key iv data.length)).length = data.length := by
    rw [xorBytes_length, ksList_length]; omega
  rw [hlen]
  exact xorBytes_cancel data (ksList key iv data.length) (by simp [ksList_length])

/-- Flip bit `j` of byte `i` of a byte string. -/
def flipBit (l : Bytes) (i j : Nat) : Bytes := l.set i ((l.getD i 0) ^^^ 2 ^ j)

theorem gcmH_ne_zero (key : Bytes) : gcmH key ≠ 0 := by
  unfold gcmH
  intro h
  have hlt : byteFold key % 256 + 1 < 257 := by omega
  have hv := ZMod.val_cast_of_lt hlt
  rw [h, ZMod.val_zero] at hv
  omega

theorem ghashStep_inj (h : ZMod 257) (hh : h ≠ 0) (a b : ZMod 257) (c : Nat)
    (e : ghashStep h a c = ghashStep h b c) : a = b := by
  unfold ghashStep at e
  exact add_right_cancel (mul_right_cancel₀ hh e)

theorem ghash_go_inj (h : ZMod 257) (hh : h ≠ 0) :
    ∀ (l : Bytes) (a b : ZMod 257), a ≠ b →
      l.foldl (ghashStep h) a ≠ l.foldl (ghashStep h) b := by
  intro l
  induction l with
  | nil => intro a b hne; simpa using hne
  | cons c t ih =>
    intro a b hne
    rw [List.foldl_cons, List.foldl_cons]
    exact ih _ _ (fun e => hne (ghashStep_inj h hh a b c e))

theorem ghash_go_set_ne (h : ZMod 257) (hh : h ≠ 0) :
    ∀ (l : Bytes) (i v : Nat) (a : ZMod 257), i < l.length →
      ((v : ZMod 257) ≠ ((l.getD i 0 : Nat) : ZMod 257)) →
      (l.set i v).foldl (ghashStep h) a ≠ l.foldl (ghashStep h) a := by
  intro l
  induction l with
  | nil => intro i v a hi; simp at hi
  | cons c t ih =>
    intro i v a hi hv
    cases i with
    | zero =>
      simp only [List.getD_cons_zero] at hv
      rw [List.set_cons_zero, List.foldl_cons, List.foldl_cons]
      refine ghash_go_inj h hh t _ _ (fun e => hv ?_)
      unfold ghashStep at e
      have h1 : a + (v : ZMod 257) = a + (c : ZMod 257) := mul_right_cancel₀ hh e
      exact add_left_cancel h1
    | succ n =>
      simp only [List.getD_cons_succ] at hv
      rw [List.set_cons_succ, List.foldl_cons, List.foldl_cons]
      exact ih n v _ (by simpa using hi) hv

theorem set_append_right (v : Nat) : ∀ (l1 l2 : Bytes) (i : Nat),
    (l1 ++ l2).set (l1.length + i) v = l1 ++ l2.set i v := by
  intro l1
  induction l1 with
  | nil => intro l2 i; simp
  | cons c t ih =>
    intro l2 i
    simp only [List.cons_append, List.length_cons]
    have : t.length + 1 + i = (t.length + i) + 1 := by omega
    rw [this, List.set_cons_succ, ih]

theorem getD_append_right : ∀ (l1 l2 : Bytes) (i : Nat),
    (l1 ++ l2).getD (l1.length + i) 0 = l2.getD i 0 := by
  intro l1
  induction l1 with
  | nil => intro l2 i; simp
  | cons c t ih =>
    intro l2 i
    simp only [List.cons_append, List.length_cons]
    have : t.length + 1 + i = (t.length + i) + 1 := by omega
    rw [this, List.getD_cons_succ, ih]

theorem getD_lt_of_forall (l : Bytes) (i : Nat) (hi : i < l.length)
    (h : ∀ b ∈ l, b < 256) : l.getD i 0 < 256 := by
  rw [List.getD_eq_getElem l 0 hi]
  exact h _ (List.getElem_mem hi)

theorem xor_pow_ne (c j : Nat) : c ^^^ 2 ^ j ≠ c := by
  intro e
  have h1 : c ^^^ (c ^^^ 2 ^ j) = 2 ^ j := by
    rw [← Nat.xor_assoc, Nat.xor_self, Nat.zero_xor]
  rw [e, Nat.xor_self] at h1
  have : 0 < 2 ^ j := Nat.pos_pow_of_pos j (by norm_num)
  omega

/-- Changing one ciphertext byte by a single-bit flip always changes the
authentication tag (for ciphertext bytes in byte range). -/
theorem tagOf_flipBit_ne (key iv c : Bytes) (i j : Nat)
    (hi : i < c.length) (hj : j < 8) (hc : ∀ b ∈ c, b < 256) :
    tagOf key iv (flipBit c i j) ≠ tagOf key iv c := by
  intro e
  unfold tagOf at e
  have e2 : ghash (gcmH key) (iv ++ flipBit c i j) = ghash (gcmH key) (iv ++ c) := by
    have := congrArg (fun n => ((n : Nat) : ZMod 257)) e
    simpa [ZMod.natCast_val, ZMod.cast_id] using this
  set v := (c.getD i 0) ^^^ 2 ^ j with hvdef
  have hmem : iv ++ flipBit c i j = (iv ++ c).set (iv.length + i) v := by
    rw [set_append_right, flipBit]
  have hvlt : v < 256 := by
    have h1 : c.getD i 0 < 256 := getD_lt_of_forall c i hi hc
    have h2 : 2 ^ j < 2 ^ 8 := Nat.pow_lt_pow_right (by norm_num) hj
    have h3 := Nat.xor_lt_two_pow (n := 8) (by simpa using h1) h2
    rw [hvdef]
    simpa using h3
  have hne : v ≠ c.getD i 0 := xor_pow_ne (c.getD i 0) j
  have hcast : ((v : ZMod 257) ≠ (((iv ++ c).getD (iv.length + i) 0 : Nat) : ZMod 257)) := by
    rw [getD_append_right]
    intro ecast
    have hv1 : ((v : ZMod 257)).val = v := ZMod.val_cast_of_lt (by omega)
    have hv2 : (((c.getD i 0 : Nat) : ZMod 257)).val = c.getD i 0 := by
      have : c.getD i 0 < 257 := by have := getD_lt_of_forall c i hi hc; omega
      exact ZMod.val_cast_of_lt this
    apply hne
    rw [← hv1, ecast, hv2]
  have hidx : iv.length + i < (iv ++ c).length := by
    simp only [List.length_append]; omega
  rw [hmem] at e2
  exact ghash_go_set_ne (gcmH key) (gcmH_ne_zero key) (iv ++ c) (iv.length + i) v 0 hidx hcast e2

theorem mem_xorBytes_lt : ∀ (a b : Bytes), (∀ x ∈ a, x < 256) → (∀ x ∈ b, x < 256) →
    ∀ x ∈ xorBytes a b, x < 256 := by
  intro a
  induction a with
  | nil => intro b _ _ x hx; simp [xorBytes] at hx
  | cons c t ih =>
    intro b ha hb x hx
    cases b with
    | nil => simp [xorBytes] at hx
    | cons d u =>
      simp only [xorBytes, List.zipWith_cons_cons, List.mem_cons] at hx
      rcases hx with h | h
      · subst h
        have h1 : c < 256 := ha c (by simp)
        have h2 : d < 256 := hb d (by simp)
        have := Nat.xor_lt_two_pow (n := 8) (by simpa using h1) (by simpa using h2)
        simpa using this
      · exact ih u (fun x hx => ha x (by simp [hx])) (fun x hx => hb x (by simp [hx])) x h

theorem mem_ksList_lt (key iv : Bytes) (n : Nat) : ∀ x ∈ ksList key iv n, x < 256 := by
  intro x hx
  simp only [ksList, List.mem_map] at hx
  obtain ⟨i, _, rfl⟩ := hx
  exact Nat.mod_lt _ (by norm_num)

/-- Flipping any bit of the ciphertext of a GCM envelope makes `decryptAES`
fail under the encoding key. -/
theorem decryptAES_flip_ciphertext (data key iv : Bytes) (i j : Nat)
    (hd : ∀ b ∈ data, b < 256) (hi : i < data.length) (hj : j < 8) :
    decryptAES { encryptAES data key iv with
      encryptedData := flipBit (encryptAES data key iv).encryptedData i j } key = none := by
  have hct : (encryptAES data key iv).encryptedData = xorBytes data (ksList key iv data.length) := rfl
  have hlen : (encryptAES data key iv).encryptedData.length = data.length := by
    rw [hct, xorBytes_length, ksList_length]; omega
  have hbytes : ∀ b ∈ (encryptAES data key iv).encryptedData, b < 256 := by
    rw [hct]; exact mem_xorBytes_lt data _ hd (mem_ksList_lt key iv data.length)
  have htag : tagOf key iv (flipBit (encryptAES data key iv).encryptedData i j) ≠
      tagOf key iv (encryptAES data key iv).encryptedData :=
    tagOf_flipBit_ne key iv _ i j (by omega) hj hbytes
  simp only [decryptAES]
  rw [if_neg]
  intro e
  exact htag (by simpa [encryptAES] using e)

/-- Flipping any bit of the authentication tag of a GCM envelope makes
`decryptAES` fail under the encoding key. -/
theorem decryptAES_flip_authTag (data key iv : Bytes) (j : Nat) :
    decryptAES { encryptAES data key iv with
      authTag := (encryptAES data key iv).authTag ^^^ 2 ^ j } key = none := by
  simp only [decryptAES]
  rw [if_neg]
  simp only [encryptAES]
  intro e
  exact xor_pow_ne _ j e.symm

end CipherShip

namespace CipherShip

/-! ## `src/backend/src/services/encryptionService.js` — the service cipher

`EncryptionService.encryptAES(data)` / `decryptAES(encryptedData)` use
AES-256-CBC with the module-level constants `AES_KEY` and `AES_IV` from
`config/constants` — a fixed key and a fixed IV for every call, and no
authentication tag.  CBC is modelled block-faithfully: PKCS#7 padding,
16-byte blocks, ciphertext chaining, padding validation on decryption. -/

/-- Modelled from the external `crypto` library: the AES-256 block operation,
idealised as XOR with a key-derived 16-byte mask (a key-indexed bijection on
16-byte blocks; CBC chaining and padding, which the claims are about, sit on
top of it unchanged). -/
def blockMask (key : Bytes) : Bytes :=
  (List.range 16).map (fun i => (byteFold key + 31 * i) % 256)

theorem blockMask_length (key : Bytes) : (blockMask key).length = 16 := by
  simp [blockMask]

/-- PKCS#7 padding to a multiple of 16 bytes. -/
def pad16 (data : Bytes) : Bytes :=
  let n := 16 - data.length % 16
  data ++ List.replicate n n

/-- PKCS#7 unpadding with validation: the last byte `n` must be in `1..16`,
fit in the data, and the last `n` bytes must all equal `n`. -/
def unpad16 (d : Bytes) : Option Bytes :=
  match d.getLast? with
  | none => none
  | some n =>
    if 1 ≤ n ∧ n ≤ 16 ∧ n ≤ d.length ∧ ∀ b ∈ d.drop (d.length - n), b = n then
      some (d.take (d.length - n))
    else
      none

theorem getLast?_replicate_succ (k : Nat) (x : Nat) :
    (List.replicate (k + 1) x).getLast? = some x := by
  induction k with
  | zero => rfl
  | succ m ih =>
    rw [List.replicate_succ]
    cases hrep : List.replicate (m + 1) x with
    | nil =>
      have := congrArg List.length hrep
      simp at this
    | cons a t =>
      rw [List.getLast?_cons_cons, ← hrep]
      exact ih

theorem getLast?_replicate_pos (n x : Nat) (h : 1 ≤ n) :
    (List.replicate n x).getLast? = some x := by
  obtain ⟨m, rfl⟩ : ∃ m, n = m + 1 := ⟨n - 1, by omega⟩
  exact getLast?_replicate_succ m x

theorem unpad16_pad16 (data : Bytes) : unpad16 (pad16 data) = some data := by
  have hmod : data.length % 16 < 16 := Nat.mod_lt _ (by norm_num)
  set n := 16 - data.length % 16 with hn
  have hn1 : 1 ≤ n := by omega
  have hn16 : n ≤ 16 := by omega
  have hrep : List.replicate n n ≠ [] := by
    cases hh : List.replicate n n with
    | nil => exact absurd (by simpa using congrArg List.length hh) (by omega)
    | cons a t => simp
  have hlast : (pad16 data).getLast? = some n := by
    rw [pad16]
    rw [List.getLast?_append_of_ne_nil _ hrep]
    exact getLast?_replicate_pos n n hn1
  have hplen : (pad16 data).length = data.length + n := by
    simp [pad16]
  have hdroplen : (pad16 data).length - n = data.length := by omega
  simp only [unpad16, hlast]
  rw [if_pos]
  · rw [hdroplen, pad16, List.take_left]
  · refine ⟨hn1, hn16, by omega, ?_⟩
    rw [hdroplen, pad16, List.drop_left]
    intro b hb
    exact List.eq_of_mem_replicate hb

/-- Split a byte string into 16-byte chunks (structural recursion on a fuel
bound so that concrete evaluation reduces in the kernel). -/
def chunksGo : Nat → Bytes → List Bytes
  | 0, _ => []
  | _ + 1, [] => []
  | fuel + 1, c :: t => ((c :: t).take 16) :: chunksGo fuel ((c :: t).drop 16)

/-- Split into 16-byte chunks. -/
def chunk16 (l : Bytes) : List Bytes := chunksGo l.length l

theorem chunksGo_join : ∀ (fuel : Nat) (l : Bytes), l.length ≤ fuel →
    (chunksGo fuel l).flatten = l := by
  intro fuel
  induction fuel with
  | zero =>
    intro l hl
    have : l = [] := List.eq_nil_of_length_eq_zero (by omega)
    subst this; rfl
  | succ m ih =>
    intro l hl
    cases l with
    | nil => rfl
    | cons c t =>
      rw [chunksGo, List.flatten_cons]
      rw [ih ((c :: t).drop 16) (by simp [List.length_drop] at *; omega)]
      exact List.take_append_drop 16 (c :: t)

theorem chunksGo_blocks : ∀ (fuel : Nat) (l : Bytes), l.length ≤ fuel →
    16 ∣ l.length → ∀ b ∈ chunksGo fuel l, b.length = 16 := by
  intro fuel
  induction fuel with
  | zero => intro l _ _ b hb; simp [chunksGo] at hb
  | succ m ih =>
    intro l hl hdvd b hb
    cases l with
    | nil => simp [chunksGo] at hb
    | cons c t =>
      rw [chunksGo, List.mem_cons] at hb
      have hlen16 : 16 ≤ (c :: t).length :=
        Nat.le_of_dvd (by simp) hdvd
      rcases hb with h | h
      · rw [h, List.length_take]; omega
      · refine ih _ (by simp [List.length_drop] at *; omega) ?_ b h
        rw [List.length_drop]
        exact Nat.dvd_sub' hdvd (dvd_refl 16)

theorem chunksGo_flatten_of_blocks : ∀ (bs : List Bytes) (fuel : Nat),
    (∀ b ∈ bs, b.length = 16) → bs.flatten.length ≤ fuel →
    chunksGo fuel bs.flatten = bs := by
  intro bs
  induction bs with
  | nil =>
    intro fuel _ _
    cases fuel with
    | zero => rfl
    | succ m => rfl
  | cons b rest ih =>
    intro fuel hall hfuel
    have hb : b.length = 16 := hall b (by simp)
    have hflat : (b :: rest).flatten = b ++ rest.flatten := by simp
    rw [hflat] at hfuel ⊢
    have hlen : (b ++ rest.flatten).length = 16 + rest.flatten.length := by
      simp [hb]
    cases fuel with
    | zero => omega
    | succ m =>
      have hnn : b ++ rest.flatten ≠ [] := by
        intro h
        have := congrArg List.length h
        simp [hb] at this
      cases hcase : b ++ rest.flatten with
      | nil => exact absurd hcase hnn
      | cons c t =>
        rw [chunksGo, ← hcase]
        rw [List.take_append_of_le_length (by omega), List.drop_append_of_le_length (by omega)]
        have ht : b.take 16 = b := by rw [← hb]; exact List.take_length ..
        have hd : b.drop 16 = [] := by
          apply List.eq_nil_of_length_eq_zero
          simp [List.length_drop, hb]
        rw [ht, hd, List.nil_append]
        rw [ih m (fun x hx => hall x (by simp [hx])) (by omega)]

/-- CBC encryption of a block list: each plaintext block is XORed with the
previous ciphertext block (initially the IV) and passed through the block
operation. -/
def cbcEnc (key : Bytes) : Bytes → List Bytes → List Bytes
  | _, [] => []
  | prev, b :: bs =>
    let c := xorBytes (xorBytes b prev) (blockMask key)
    c :: cbcEnc key c bs

/-- CBC decryption of a block list. -/
def cbcDec (key : Bytes) : Bytes → List Bytes → List Bytes
  | _, [] => []
  | prev, c :: cs => xorBytes (xorBytes c (blockMask key)) prev :: cbcDec key c cs

theorem cbcEnc_blocks (key : Bytes) : ∀ (bs : List Bytes) (prev : Bytes),
    (∀ b ∈ bs, b.length = 16) → prev.length = 16 →
    ∀ c ∈ cbcEnc key prev bs, c.length = 16 := by
  intro bs
  induction bs with
  | nil => intro prev _ _ c hc; simp [cbcEnc] at hc
  | cons b rest ih =>
    intro prev hall hprev c hc
    have hb : b.length = 16 := hall b (by simp)
    have hclen : (xorBytes (xorBytes b prev) (blockMask key)).length = 16 := by
      rw [xorBytes_length, xorBytes_length, blockMask_length, hb, hprev]; simp
    rw [cbcEnc, List.mem_cons] at hc
    rcases hc with h | h
    · rw [h]; exact hclen
    · exact ih _ (fun x hx => hall x (by simp [hx])) hclen c h

theorem cbcDec_cbcEnc (key : Bytes) : ∀ (bs : List Bytes) (prev : Bytes),
    (∀ b ∈ bs, b.length = 16) → prev.length = 16 →
    cbcDec key prev (cbcEnc key prev bs) = bs := by
  intro bs
  induction bs with
  | nil => intro prev _ _; rfl
  | cons b rest ih =>
    intro prev hall hprev
    have hb : b.length = 16 := hall b (by simp)
    have hxp : (xorBytes b prev).length = 16 := by
      rw [xorBytes_length, hb, hprev]; simp
    have hclen : (xorBytes (xorBytes b prev) (blockMask key)).length = 16 := by
      rw [xorBytes_length, hxp, blockMask_length]; simp
    rw [cbcEnc, cbcDec]
    rw [xorBytes_cancel (xorBytes b prev) (blockMask key) (by rw [hxp, blockMask_length])]
    rw [xorBytes_cancel b prev (by omega)]
    rw [ih _ (fun x hx => hall x (by simp [hx])) hclen]

end CipherShip

namespace CipherShip.EncryptionService

/-- Modelled from the spec: `config/constants.js` is not under `src/`; it
supplies the fixed deployment constants `AES_KEY` (32-byte hex key) and
`AES_IV` (16-byte hex IV) that `encryptionService.js` reads at module load.
The concrete values are arbitrary; the service behaviour the claims concern
depends only on their being constants shared by every call. -/
def AES_KEY : Bytes := (List.range 32).map (fun i => (7 * i + 13) % 256)

/-- Modelled from the spec: the fixed IV constant, see `AES_KEY`. -/
def AES_IV : Bytes := (List.range 16).map (fun i => (11 * i + 5) % 256)

theorem AES_IV_length : AES_IV.length = 16 := by simp [AES_IV]

/-- `EncryptionService.encryptAES(data)`: AES-256-CBC under the fixed
`AES_KEY`/`AES_IV`; PKCS#7-pad, chunk into 16-byte blocks, CBC-chain. -/
def encryptAES (data : Bytes) : Bytes :=
  (cbcEnc AES_KEY AES_IV (chunk16 (pad16 data))).flatten

/-- `EncryptionService.decryptAES(encryptedData)`: AES-256-CBC decryption
under the fixed `AES_KEY`/`AES_IV`; rejects ciphertexts that are not a
positive multiple of the block size, CBC-decrypts and validates the PKCS#7
padding, throwing (`none`) when it is invalid. -/
def decryptAES (ct : Bytes) : Option Bytes :=
  if ct.length % 16 = 0 ∧ 0 < ct.length then
    unpad16 ((cbcDec AES_KEY AES_IV (chunk16 ct)).flatten)
  else
    none

theorem pad16_length_dvd (data : Bytes) : 16 ∣ (pad16 data).length := by
  have hmod : data.length % 16 < 16 := Nat.mod_lt _ (by norm_num)
  have h : (pad16 data).length = data.length + (16 - data.length % 16) := by simp [pad16]
  rw [h]
  have := Nat.div_add_mod data.length 16
  exact ⟨data.length / 16 + 1, by omega⟩

theorem pad16_length_pos (data : Bytes) : 0 < (pad16 data).length := by
  have hmod : data.length % 16 < 16 := Nat.mod_lt _ (by norm_num)
  have h : (pad16 data).length = data.length + (16 - data.length % 16) := by simp [pad16]
  omega

theorem flatten_length_of_blocks : ∀ (bs : List Bytes),
    (∀ b ∈ bs, b.length = 16) → bs.flatten.length = 16 * bs.length := by
  intro bs
  induction bs with
  | nil => intro _; simp
  | cons c rest ih =>
    intro hall
    simp only [List.flatten_cons, List.length_append, List.length_cons]
    rw [ih (fun x hx => hall x (by simp [hx])), hall c (by simp)]
    ring

theorem cbcEnc_list_length (key : Bytes) : ∀ (bs : List Bytes) (prev : Bytes),
    (cbcEnc key prev bs).length = bs.length := by
  intro bs
  induction bs with
  | nil => intro prev; rfl
  | cons b rest ih => intro prev; simp only [cbcEnc, List.length_cons, ih]

theorem chunk16_length_pos (l : Bytes) (hl : 0 < l.length) : 0 < (chunk16 l).length := by
  cases l with
  | nil => simp at hl
  | cons c t => rw [chunk16, List.length_cons, chunksGo]; simp

theorem decryptAES_encryptAES_cbc (data : Bytes) : decryptAES (encryptAES data) = some data := by
  have hdvd := pad16_length_dvd data
  have hpos := pad16_length_pos data
  have hblocks : ∀ b ∈ chunk16 (pad16 data), b.length = 16 :=
    chunksGo_blocks _ _ (le_refl _) hdvd
  have hctblocks : ∀ c ∈ cbcEnc AES_KEY AES_IV (chunk16 (pad16 data)), c.length = 16 :=
    cbcEnc_blocks AES_KEY _ AES_IV hblocks AES_IV_length
  set cts := cbcEnc AES_KEY AES_IV (chunk16 (pad16 data)) with hcts
  have hflatlen : cts.flatten.length = 16 * cts.length :=
    flatten_length_of_blocks cts hctblocks
  have hctslen : cts.length = (chunk16 (pad16 data)).length := by
    rw [hcts, cbcEnc_list_length]
  have hctspos : 0 < cts.length := by
    rw [hctslen]; exact chunk16_length_pos _ hpos
  have hchunk : chunk16 cts.flatten = cts := by
    rw [chunk16]
    exact chunksGo_flatten_of_blocks cts _ hctblocks (le_refl _)
  have hjoin : (chunk16 (pad16 data)).flatten = pad16 data :=
    chunksGo_join _ _ (le_refl _)
  rw [decryptAES, encryptAES, ← hcts, if_pos, hchunk]
  · rw [cbcDec_cbcEnc AES_KEY _ AES_IV hblocks AES_IV_length, hjoin]
    exact unpad16_pad16 data
  · omega

end CipherShip.EncryptionService

namespace CipherShip

/-! ## JSON wrapping

`encryptCustomerData`/`decryptCustomerData` in `utils/encryption.js` and the
QR controllers in `qrCodeController.js` serialize a flat object of string
fields with `JSON.stringify` before encrypting, and `JSON.parse` the
decrypted text.  Objects are modelled as association lists of byte strings
in field order; `jsonStringify`/`jsonParse` below implement the canonical
serialization (`{"k":"v",...}` with `\x22` and backslash escaped) that
`JSON.stringify` produces for such objects, and its inverse. -/

/-- Escape one byte: a quote (34) or backslash (92) is prefixed with a
backslash. -/
def escByte (c : Nat) : Bytes :=
  if c = 34 ∨ c = 92 then [92, c] else [c]

/-- Escape a byte string for inclusion in a JSON string literal. -/
def escape (s : Bytes) : Bytes := (s.map escByte).flatten

/-- A JSON string literal: quote, escaped content, quote. -/
def strLit (s : Bytes) : Bytes := 34 :: (escape s ++ [34])

/-- Read a JSON string body (after the opening quote) up to its closing
quote; returns the unescaped content and the remaining input. -/
def readStr : Bytes → Option (Bytes × Bytes)
  | [] => none
  | [c] => if c = 34 then some ([], []) else none
  | c :: e :: rest2 =>
    if c = 34 then some ([], e :: rest2)
    else if c = 92 then
      (if e = 34 ∨ e = 92 then (readStr rest2).map (fun p => (e :: p.1, p.2)) else none)
    else (readStr (e :: rest2)).map (fun p => (c :: p.1, p.2))

/-- Read a complete JSON string literal. -/
def readStrLit : Bytes → Option (Bytes × Bytes)
  | [] => none
  | c :: rest => if c = 34 then readStr rest else none

/-- One `"key":"value"` pair. -/
def pairBytes (k v : Bytes) : Bytes := strLit k ++ 58 :: strLit v

/-- The comma-separated pair list inside the braces. -/
def innerKVs : List (Bytes × Bytes) → Bytes
  | [] => []
  | [kv] => pairBytes kv.1 kv.2
  | kv :: r :: rs => pairBytes kv.1 kv.2 ++ 44 :: innerKVs (r :: rs)

/-- `JSON.stringify` of a flat object of string fields, in field order. -/
def jsonStringify (kvs : List (Bytes × Bytes)) : Bytes :=
  123 :: (innerKVs kvs ++ [125])

/-- Parse one `"key":"value"` pair. -/
def parsePair (input : Bytes) : Option ((Bytes × Bytes) × Bytes) :=
  match readStrLit input with
  | none => none
  | some (k, r1) =>
    match r1 with
    | [] => none
    | c :: r2 =>
      if c = 58 then
        match readStrLit r2 with
        | none => none
        | some (v, r3) => some ((k, v), r3)
      else none

/-- Parse a comma-separated sequence of pairs (fuel-bounded, one unit of
fuel per pair, so that recursion is structural and evaluation reduces in
the kernel). -/
def parsePairsGo : Nat → Bytes → Option (List (Bytes × Bytes) × Bytes)
  | 0, _ => none
  | fuel + 1, input =>
    match parsePair input with
    | none => none
    | some (kv, rest) =>
      match rest with
      | [] => some ([kv], [])
      | c :: rest2 =>
        if c = 44 then
          match parsePairsGo fuel rest2 with
          | none => none
          | some (kvs, r) => some (kv :: kvs, r)
        else some ([kv], c :: rest2)

/-- `JSON.parse` of a flat object of string fields, inverse of
`jsonStringify` on its image. -/
def jsonParse : Bytes → Option (List (Bytes × Bytes))
  | [] => none
  | c :: rest =>
    if c = 123 then
      match rest with
      | [] => none
      | d :: rest2 =>
        if d = 125 then (if rest2 = [] then some [] else none)
        else
          match parsePairsGo (d :: rest2).length (d :: rest2) with
          | none => none
          | some (kvs, r) => if r = [125] then some kvs else none
    else none

/-- Property access `obj.key` on a parsed object. -/
def getKV (kvs : List (Bytes × Bytes)) (key : Bytes) : Option Bytes :=
  match kvs.find? (fun p => decide (p.1 = key)) with
  | none => none
  | some p => some p.2

theorem escape_cons (c : Nat) (t : Bytes) : escape (c :: t) = escByte c ++ escape t := by
  simp [escape]

theorem readStr_cons_quote (rest : Bytes) : readStr (34 :: rest) = some ([], rest) := by
  cases rest with
  | nil => simp [readStr]
  | cons e r => simp [readStr]

theorem readStr_cons_esc (e : Nat) (rest : Bytes) (he : e = 34 ∨ e = 92) :
    readStr (92 :: e :: rest) = (readStr rest).map (fun p => (e :: p.1, p.2)) := by
  simp [readStr, he]

theorem readStr_cons_other (c : Nat) (rest : Bytes) (h34 : c ≠ 34) (h92 : c ≠ 92) :
    readStr (c :: rest) = (readStr rest).map (fun p => (c :: p.1, p.2)) := by
  cases rest with
  | nil => simp [readStr, h34, h92]
  | cons e r => simp [readStr, h34, h92]

theorem readStr_escape : ∀ (s rest : Bytes), readStr (escape s ++ 34 :: rest) = some (s, rest) := by
  intro s
  induction s with
  | nil => intro rest; simp [escape]; exact readStr_cons_quote rest
  | cons c t ih =>
    intro rest
    rw [escape_cons]
    by_cases hesc : c = 34 ∨ c = 92
    · have he : escByte c = [92, c] := by simp [escByte, hesc]
      rw [he]
      simp only [List.cons_append, List.append_assoc, List.nil_append]
      rw [readStr_cons_esc c _ hesc, ih rest]
      rfl
    · push_neg at hesc
      have he : escByte c = [c] := by simp [escByte, hesc.1, hesc.2]
      rw [he]
      simp only [List.cons_append, List.nil_append]
      rw [readStr_cons_other c _ hesc.1 hesc.2, ih rest]
      rfl

theorem readStrLit_strLit (s rest : Bytes) :
    readStrLit (strLit s ++ rest) = some (s, rest) := by
  have h : strLit s ++ rest = 34 :: (escape s ++ 34 :: rest) := by
    simp [strLit]
  rw [h]
  have h2 : readStrLit (34 :: (escape s ++ 34 :: rest)) = readStr (escape s ++ 34 :: rest) := by
    simp [readStrLit]
  rw [h2, readStr_escape]

theorem parsePair_pairBytes (k v rest : Bytes) :
    parsePair (pairBytes k v ++ rest) = some ((k, v), rest) := by
  have h : pairBytes k v ++ rest = strLit k ++ (58 :: (strLit v ++ rest)) := by
    simp [pairBytes]
  rw [h, parsePair, readStrLit_strLit]
  simp [readStrLit_strLit]

theorem strLit_length_ge (s : Bytes) : 2 ≤ (strLit s).length := by
  simp [strLit]

theorem pairBytes_length_ge (k v : Bytes) : 1 ≤ (pairBytes k v).length := by
  have := strLit_length_ge k
  simp [pairBytes]
  omega

theorem innerKVs_length_ge : ∀ (kvs : List (Bytes × Bytes)),
    kvs.length ≤ (innerKVs kvs).length := by
  intro kvs
  induction kvs with
  | nil => simp [innerKVs]
  | cons kv rest ih =>
    cases rest with
    | nil =>
      have := pairBytes_length_ge kv.1 kv.2
      simp [innerKVs]
      omega
    | cons r rs =>
      rw [innerKVs]
      have h1 := pairBytes_length_ge kv.1 kv.2
      simp only [List.length_cons, List.length_append] at ih ⊢
      omega

theorem parsePairsGo_innerKVs : ∀ (kvs : List (Bytes × Bytes)) (fuel : Nat),
    kvs ≠ [] → kvs.length ≤ fuel →
    parsePairsGo fuel (innerKVs kvs ++ [125]) = some (kvs, [125]) := by
  intro kvs
  induction kvs with
  | nil => intro fuel h _; exact absurd rfl h
  | cons kv rest ih =>
    intro fuel _ hfuel
    obtain ⟨m, rfl⟩ : ∃ m, fuel = m + 1 := ⟨fuel - 1, by simp at hfuel; omega⟩
    cases rest with
    | nil =>
      have hin : innerKVs [kv] = pairBytes kv.1 kv.2 := rfl
      rw [hin, parsePairsGo, parsePair_pairBytes]
      simp
    | cons r rs =>
      rw [innerKVs]
      have hassoc : (pairBytes kv.1 kv.2 ++ 44 :: innerKVs (r :: rs)) ++ [125] =
          pairBytes kv.1 kv.2 ++ (44 :: (innerKVs (r :: rs) ++ [125])) := by
        simp
      rw [hassoc, parsePairsGo, parsePair_pairBytes]
      have hrec := ih m (by simp) (by simp at hfuel ⊢; omega)
      simp [hrec]

theorem innerKVs_cons_head (kv : Bytes × Bytes) (rest : List (Bytes × Bytes)) :
    ∃ t2, innerKVs (kv :: rest) = 34 :: t2 := by
  cases rest with
  | nil =>
    exact ⟨escape kv.1 ++ [34] ++ (58 :: strLit kv.2), by simp [innerKVs, pairBytes, strLit]⟩
  | cons r rs =>
    refine ⟨(escape kv.1 ++ [34] ++ (58 :: strLit kv.2)) ++ 44 :: innerKVs (r :: rs), ?_⟩
    rw [innerKVs]
    simp [pairBytes, strLit]

theorem jsonParse_cons_ne (d : Nat) (rest2 : Bytes) (hd : d ≠ 125) :
    jsonParse (123 :: d :: rest2) =
      match parsePairsGo (d :: rest2).length (d :: rest2) with
      | none => none
      | some (kvs, r) => if r = [125] then some kvs else none := by
  simp [jsonParse, hd]

theorem jsonParse_jsonStringify (kvs : List (Bytes × Bytes)) :
    jsonParse (jsonStringify kvs) = some kvs := by
  cases kvs with
  | nil => rfl
  | cons kv rest =>
    obtain ⟨t2, ht2⟩ := innerKVs_cons_head kv rest
    have hform : innerKVs (kv :: rest) ++ [125] = 34 :: (t2 ++ [125]) := by
      rw [ht2]; simp
    rw [jsonStringify, hform]
    have hlen : (kv :: rest).length ≤ (34 :: (t2 ++ [125])).length := by
      have h1 := innerKVs_length_ge (kv :: rest)
      have h2 : (innerKVs (kv :: rest)).length = t2.length + 1 := by
        rw [ht2]; simp
      simp only [List.length_cons, List.length_append, List.length_singleton] at h1 h2 ⊢
      omega
    have hgo := parsePairsGo_innerKVs (kv :: rest) ((34 :: (t2 ++ [125])).length)
      (by simp) hlen
    rw [hform] at hgo
    rw [jsonParse_cons_ne 34 (t2 ++ [125]) (by norm_num), hgo]
    simp

end CipherShip

namespace CipherShip

/-! ## Customer-data wrapping (`utils/encryption.js`) -/

/-- `encryptCustomerData(customerData, encryptionKey)`: `JSON.stringify` the
flat customer-data object (modelled as its field list) and `encryptAES` the
string.  The `iv` argument is the fresh IV `encryptAES` generates per call. -/
def encryptCustomerData (customerData : List (Bytes × Bytes)) (encryptionKey iv : Bytes) :
    Envelope :=
  encryptAES (jsonStringify customerData) encryptionKey iv

/-- `decryptCustomerData(encryptedData, encryptionKey)`: `decryptAES` then
`JSON.parse`. -/
def decryptCustomerData (enc : Envelope) (encryptionKey : Bytes) :
    Option (List (Bytes × Bytes)) :=
  match decryptAES enc encryptionKey with
  | none => none
  | some s => jsonParse s

theorem decryptCustomerData_encryptCustomerData
    (d : List (Bytes × Bytes)) (key iv : Bytes) :
    decryptCustomerData (encryptCustomerData d key iv) key = some d := by
  rw [decryptCustomerData, encryptCustomerData, decryptAES_encryptAES]
  exact jsonParse_jsonStringify d

/-! ## Data model

Documents of the mongoose models, as explicit records; the database is the
explicit state threaded through every operation.  `Package` merges the two
schema variants in the repository (`models/Package.js` and the richer
`PackageSchema` of `models/TrackingLog.js`, which carries `statusHistory` and
the pre-save hook); `QRCode` is `models/QRCode.js` (`packageId`,
`encryptedData`, `expiresAt`, `isActive`); `TrackingLog` entries are the
audit records the controllers create. -/

/-- Package statuses.  Modelled from the spec: the status enum
(`TRACKING.STATUS` of the absent `config/constants.js`) is taken as the
`validStatuses` list of `packageController.updatePackageStatus` plus the
spec's `Cancelled` status. -/
inductive Status
  | created
  | inTransit
  | outForDelivery
  | delivered
  | failed
  | returned
  | cancelled
deriving DecidableEq, Repr

/-- The explicit `validStatuses` list of `updatePackageStatus`:
`['created', 'in-transit', 'out-for-delivery', 'delivered', 'failed',
'returned']` — note that `cancelled` is not in it. -/
def validStatuses : List Status :=
  [.created, .inTransit, .outForDelivery, .delivered, .failed, .returned]

/-- One entry of a package's `statusHistory`. -/
structure HistEntry where
  status : Status
  timestamp : Nat
deriving DecidableEq, Repr

/-- A `Package` document. -/
structure PackageDoc where
  id : Bytes
  trackingNumber : Bytes
  recipientName : Bytes
  recipientAddress : Bytes
  recipientPhone : Bytes
  recipientEmail : Bytes
  status : Status
  statusHistory : List HistEntry
  qrCodeId : Option Nat
  createdAt : Nat
  updatedAt : Nat
deriving DecidableEq, Repr

/-- A `QRCode` document (`models/QRCode.js`). -/
structure QRCodeDoc where
  id : Nat
  packageId : Bytes
  encryptedData : Bytes
  expiresAt : Nat
  isActive : Bool
deriving DecidableEq, Repr

/-- Roles of the auth provider. -/
inductive Role
  | admin
  | deliveryAgent
  | customer
deriving DecidableEq, Repr

/-- The distinct messages a `TrackingLog` entry is created with. -/
inductive LogMsg
  | statusUpdated (s : Status)
  | qrGenerated
  | qrScannedBy (r : Role)
  | qrInvalidated
deriving DecidableEq, Repr

/-- A `TrackingLog` document. -/
structure LogEntry where
  id : Nat
  packageId : Bytes
  userId : Option Bytes
  message : LogMsg
deriving DecidableEq, Repr

/-- The persisted state: all collections plus a fresh-id counter. -/
structure DB where
  packages : List PackageDoc
  qrcodes : List QRCodeDoc
  logs : List LogEntry
  nextId : Nat
deriving DecidableEq, Repr

/-- `Package.findById`. -/
def findPackage (db : DB) (pid : Bytes) : Option PackageDoc :=
  db.packages.find? (fun p => decide (p.id = pid))

/-- `QRCode.findOne({ encryptedData })`. -/
def findQRCodeByData (db : DB) (data : Bytes) : Option QRCodeDoc :=
  db.qrcodes.find? (fun q => decide (q.encryptedData = data))

/-- Replace the package with the given document's id (`package.save()` of an
updated document). -/
def updatePackage (db : DB) (p : PackageDoc) : DB :=
  { db with packages := db.packages.map (fun q => if q.id = p.id then p else q) }

/-- Modelled from the spec: `validateObjectId` of the absent
`utils/validators` — mongoose ObjectId validity, a 24-character hex string. -/
def isValidObjectId (s : Bytes) : Bool :=
  s.length == 24 && s.all (fun c => (48 ≤ c && c ≤ 57) || (97 ≤ c && c ≤ 102) || (65 ≤ c && c ≤ 70))

/-- The `PackageSchema.pre('save')` hook of `models/TrackingLog.js`: refresh
`updatedAt`; when the `status` path is modified, push one
`{status, timestamp}` entry onto `statusHistory`. -/
def preSave (now : Nat) (modifiedStatus : Bool) (p : PackageDoc) : PackageDoc :=
  let p1 := { p with updatedAt := now }
  if modifiedStatus then
    { p1 with statusHistory := p1.statusHistory ++ [{ status := p1.status, timestamp := now }] }
  else p1

/-- The `currentStatus` virtual of the same schema: the last history entry,
falling back to `{status, createdAt}` when the history is empty. -/
def currentStatus (p : PackageDoc) : Status × Nat :=
  match p.statusHistory.getLast? with
  | none => (p.status, p.createdAt)
  | some e => (e.status, e.timestamp)

/-- JSON key byte strings (`trackingNumber`, `recipient*`, `customer*`,
`packageId`). -/
def kTrackingNumber : Bytes := [116, 114, 97, 99, 107, 105, 110, 103, 78, 117, 109, 98, 101, 114]

def kRecipientName : Bytes := [114, 101, 99, 105, 112, 105, 101, 110, 116, 78, 97, 109, 101]

def kRecipientAddress : Bytes := [114, 101, 99, 105, 112, 105, 101, 110, 116, 65, 100, 100, 114, 101, 115, 115]

def kRecipientPhone : Bytes := [114, 101, 99, 105, 112, 105, 101, 110, 116, 80, 104, 111, 110, 101]

def kRecipientEmail : Bytes := [114, 101, 99, 105, 112, 105, 101, 110, 116, 69, 109, 97, 105, 108]

def kPackageId : Bytes := [112, 97, 99, 107, 97, 103, 101, 73, 100]

def kCustomerName : Bytes := [99, 117, 115, 116, 111, 109, 101, 114, 78, 97, 109, 101]

def kCustomerPhone : Bytes := [99, 117, 115, 116, 111, 109, 101, 114, 80, 104, 111, 110, 101]

def kCustomerAddress : Bytes := [99, 117, 115, 116, 111, 109, 101, 114, 65, 100, 100, 114, 101, 115, 115]

/-- Modelled from the spec: the default token TTL (`QR_CODE.EXPIRY` of the
absent `config/constants.js`; `qrCodeService.js` uses 30 days), in
milliseconds. -/
def qrExpiryMs : Nat := 2592000000

end CipherShip

namespace CipherShip.PackageController

/-! ## `packageController.updatePackageStatus`

Validates the id format and that the requested status is in the explicit
`validStatuses` list, then unconditionally assigns `package.status`, saves
(which fires the pre-save hook; mongoose marks the `status` path modified
only when the assigned value differs) and creates one `TrackingLog` entry.
No transition table is consulted. -/

inductive Outcome
  | invalidIdFormat
  | invalidStatus
  | packageNotFound
  | ok (p : PackageDoc)
deriving DecidableEq, Repr

def updatePackageStatus (db : DB) (id : Bytes) (status : Status) (userId : Bytes)
    (now : Nat) : Outcome × DB :=
  if isValidObjectId id = false then (.invalidIdFormat, db)
  else if status ∉ validStatuses then (.invalidStatus, db)
  else
    match findPackage db id with
    | none => (.packageNotFound, db)
    | some p =>
      let modified := decide (status ≠ p.status)
      let p1 := preSave now modified { p with status := status }
      let db1 := updatePackage db p1
      let log : LogEntry :=
        { id := db.nextId, packageId := p.id, userId := some userId,
          message := .statusUpdated status }
      (.ok p1, { db1 with logs := db1.logs ++ [log], nextId := db.nextId + 1 })

end CipherShip.PackageController

namespace CipherShip.QRCodeService

/-! ## `services/qrCodeService.js`

`generateQRCode(packageId)` reads the package, encrypts the recipient
payload with the service cipher, and creates a QR record with
`isActive: true` and a 30-day expiry, plus one tracking-log entry.  It does
not touch any existing QR record.  `decodeQRCode(encryptedData, userId)`
looks the record up by ciphertext, checks `isActive`, then expiry
(`new Date() > expiresAt`), then decrypts, logs the scan and returns the
plaintext. -/

inductive GenOutcome
  | packageNotFound
  | ok (qrCodeId : Nat) (expiresAt : Nat)
deriving DecidableEq, Repr

def generateQRCode (db : DB) (packageId : Bytes) (now : Nat) : GenOutcome × DB :=
  match findPackage db packageId with
  | none => (.packageNotFound, db)
  | some p =>
    let payload := jsonStringify
      [(kTrackingNumber, p.trackingNumber), (kRecipientName, p.recipientName),
       (kRecipientAddress, p.recipientAddress), (kRecipientPhone, p.recipientPhone),
       (kRecipientEmail, p.recipientEmail), (kPackageId, p.id)]
    let encryptedData := EncryptionService.encryptAES payload
    let qr : QRCodeDoc :=
      { id := db.nextId, packageId := packageId, encryptedData := encryptedData,
        expiresAt := now + qrExpiryMs, isActive := true }
    let log : LogEntry :=
      { id := db.nextId + 1, packageId := packageId, userId := none,
        message := .qrGenerated }
    (.ok qr.id qr.expiresAt,
     { db with
        qrcodes := db.qrcodes ++ [qr]
        logs := db.logs ++ [log]
        nextId := db.nextId + 2 })

inductive DecodeOutcome
  | invalidQRCode
  | notActive
  | expired
  | decryptFailed
  | ok (data : Bytes)
deriving DecidableEq, Repr

def decodeQRCode (db : DB) (encryptedData : Bytes) (userId : Bytes) (now : Nat) :
    DecodeOutcome × DB :=
  match findQRCodeByData db encryptedData with
  | none => (.invalidQRCode, db)
  | some qr =>
    if qr.isActive = false then (.notActive, db)
    else if qr.expiresAt < now then (.expired, db)
    else
      match EncryptionService.decryptAES encryptedData with
      | none => (.decryptFailed, db)
      | some plain =>
        let log : LogEntry :=
          { id := db.nextId, packageId := qr.packageId, userId := some userId,
            message := .qrScannedBy .deliveryAgent }
        (.ok plain, { db with logs := db.logs ++ [log], nextId := db.nextId + 1 })

end CipherShip.QRCodeService

namespace CipherShip.QRCodeController

/-! ## `controllers/qrCodeController.js`

`scanQRCode` checks the scanner's role, decrypts with the service cipher,
`JSON.parse`s, resolves the package by the embedded `packageId`, logs the
scan only on that success path, and returns the decrypted customer data.
It never consults the QR record, so neither `isActive` nor `expiresAt` is
checked.  A decryption, parse or id-cast failure is caught by the inner
`catch` and answered with the one generic 400 `Invalid QR code data`
response, while a missing package is answered with a distinct 404.
`verifyQRCode` decrypts and cross-checks the tracking number but writes no
log on any branch.  `invalidateQRCode` deletes the old QR record
(`findByIdAndDelete`) and creates a fresh one. -/

inductive ScanOutcome
  | notAuthorized
  | invalidData
  | packageNotFound
  | ok (packageData : List (Bytes × Bytes)) (p : PackageDoc)
deriving DecidableEq, Repr

/-- The HTTP status of each scan response. -/
def scanStatus : ScanOutcome → Nat
  | .notAuthorized => 403
  | .invalidData => 400
  | .packageNotFound => 404
  | .ok _ _ => 200

def scanQRCode (db : DB) (role : Role) (userId : Bytes) (encryptedData : Bytes) :
    ScanOutcome × DB :=
  if role ≠ .admin ∧ role ≠ .deliveryAgent then (.notAuthorized, db)
  else
    match EncryptionService.decryptAES encryptedData with
    | none => (.invalidData, db)
    | some plain =>
      match jsonParse plain with
      | none => (.invalidData, db)
      | some kvs =>
        match getKV kvs kPackageId with
        | none => (.invalidData, db)
        | some pid =>
          if isValidObjectId pid = false then (.invalidData, db)
          else
            match findPackage db pid with
            | none => (.packageNotFound, db)
            | some p =>
              let log : LogEntry :=
                { id := db.nextId, packageId := p.id, userId := some userId,
                  message := .qrScannedBy role }
              (.ok kvs p, { db with logs := db.logs ++ [log], nextId := db.nextId + 1 })

inductive VerifyOutcome
  | invalid
  | invalidPackage
  | invalidTracking
  | valid (trackingNumber : Bytes) (status : Status)
deriving DecidableEq, Repr

def verifyQRCode (db : DB) (encryptedData : Bytes) : VerifyOutcome × DB :=
  match EncryptionService.decryptAES encryptedData with
  | none => (.invalid, db)
  | some plain =>
    match jsonParse plain with
    | none => (.invalid, db)
    | some kvs =>
      match getKV kvs kPackageId with
      | none => (.invalid, db)
      | some pid =>
        if isValidObjectId pid = false then (.invalid, db)
        else
          match findPackage db pid with
          | none => (.invalidPackage, db)
          | some p =>
            match getKV kvs kTrackingNumber with
            | none => (.invalidTracking, db)
            | some tn =>
              if tn ≠ p.trackingNumber then (.invalidTracking, db)
              else (.valid tn p.status, db)

inductive InvalidateOutcome
  | invalidIdFormat
  | packageNotFound
  | noQRCode
  | ok (newQrId : Nat)
deriving DecidableEq, Repr

def invalidateQRCode (db : DB) (packageId : Bytes) (userId : Bytes) (now : Nat) :
    InvalidateOutcome × DB :=
  if isValidObjectId packageId = false then (.invalidIdFormat, db)
  else
    match findPackage db packageId with
    | none => (.packageNotFound, db)
    | some p =>
      match p.qrCodeId with
      | none => (.noQRCode, db)
      | some qid =>
        let qrcodes1 := db.qrcodes.filter (fun q => decide (q.id ≠ qid))
        let payload := jsonStringify
          [(kTrackingNumber, p.trackingNumber), (kCustomerName, p.recipientName),
           (kCustomerPhone, p.recipientPhone), (kCustomerAddress, p.recipientAddress),
           (kPackageId, p.id)]
        let encryptedData := EncryptionService.encryptAES payload
        let newQR : QRCodeDoc :=
          { id := db.nextId, packageId := p.id, encryptedData := encryptedData,
            expiresAt := now + qrExpiryMs, isActive := true }
        let p1 := preSave now false { p with qrCodeId := some newQR.id }
        let db1 := updatePackage { db with qrcodes := qrcodes1 ++ [newQR] } p1
        let log : LogEntry :=
          { id := db.nextId + 1, packageId := p.id, userId := some userId,
            message := .qrInvalidated }
        (.ok newQR.id, { db1 with logs := db1.logs ++ [log], nextId := db.nextId + 2 })

end CipherShip.QRCodeController

namespace CipherShip.TrackingController

/-! ## `trackingController.deleteTrackingEvent` — removes the tracking log
record with the given id from the collection. -/

inductive DeleteOutcome
  | notFound
  | ok
deriving DecidableEq, Repr

def deleteTrackingEvent (db : DB) (id : Nat) : DeleteOutcome × DB :=
  match db.logs.find? (fun l => decide (l.id = id)) with
  | none => (.notFound, db)
  | some _ => (.ok, { db with logs := db.logs.filter (fun l => decide (l.id ≠ id)) })

end CipherShip.TrackingController

namespace CipherShip

/-! ## Helper notions for the claims, and concrete fixtures -/

/-- Terminal statuses per the spec's state machine (§4.2). -/
def isTerminal : Status → Bool
  | .delivered => true
  | .returned => true
  | .cancelled => true
  | _ => false

/-- The legal transition table exactly as the spec states it (§4.2); this
definition follows the spec's words and is only used to state claim C4
against the controller's behaviour. -/
def specLegalEdge (a b : Status) : Bool :=
  match a, b with
  | .created, .inTransit => true
  | .inTransit, .outForDelivery => true
  | .outForDelivery, .delivered => true
  | .outForDelivery, .failed => true
  | .failed, .inTransit => true
  | .failed, .returned => true
  | a, .cancelled => !(isTerminal a)
  | _, _ => false

/-- Number of active QR records for a package. -/
def activeTokenCount (db : DB) (pid : Bytes) : Nat :=
  (db.qrcodes.filter (fun q => decide (q.packageId = pid) && q.isActive)).length

/-- Number of tracking-log entries a scan response branch writes. -/
def scanLogDelta : QRCodeController.ScanOutcome → Nat
  | .ok _ _ => 1
  | _ => 0

/-- A valid ObjectId (24 hex characters `a`). -/
def oid1 : Bytes := List.replicate 24 97

/-- A second, distinct valid ObjectId (24 hex characters `b`). -/
def oid2 : Bytes := List.replicate 24 98

/-- A concrete package. -/
def pkgA : PackageDoc :=
  { id := oid1, trackingNumber := [67, 83, 49], recipientName := [65],
    recipientAddress := [66], recipientPhone := [49], recipientEmail := [69],
    status := .created, statusHistory := [], qrCodeId := none,
    createdAt := 0, updatedAt := 0 }

/-- A database holding only `pkgA`. -/
def dbA : DB := { packages := [pkgA], qrcodes := [], logs := [], nextId := 1 }

/-- A delivered package with one history entry. -/
def pkgD : PackageDoc :=
  { pkgA with status := .delivered, statusHistory := [{ status := .delivered, timestamp := 1 }] }

/-- `pkgD` after the controller accepts a `delivered → in-transit` update at
time 5. -/
def pkgDafter : PackageDoc :=
  { pkgD with
    status := .inTransit
    updatedAt := 5
    statusHistory := pkgD.statusHistory ++ [{ status := .inTransit, timestamp := 5 }] }

/-- A database holding only `pkgD`. -/
def dbD : DB := { packages := [pkgD], qrcodes := [], logs := [], nextId := 1 }

/-- A ciphertext whose embedded `packageId` is `pkgA`'s id. -/
def encB : Bytes := EncryptionService.encryptAES (jsonStringify [(kPackageId, oid1)])

/-- A QR record for `pkgA` that expired at time 5. -/
def qrB : QRCodeDoc :=
  { id := 1, packageId := oid1, encryptedData := encB, expiresAt := 5, isActive := true }

/-- A database with `pkgA` and its expired, still-active token `qrB`. -/
def dbB : DB := { packages := [pkgA], qrcodes := [qrB], logs := [], nextId := 2 }

/-- A well-formed ciphertext whose embedded `packageId` (`oid2`) matches no
package of `dbB`. -/
def encUnknown : Bytes := EncryptionService.encryptAES (jsonStringify [(kPackageId, oid2)])

/-- A package that references QR record 1. -/
def pkgC : PackageDoc := { pkgA with qrCodeId := some 1 }

/-- The QR record `pkgC` references. -/
def qrC : QRCodeDoc :=
  { id := 1, packageId := oid1, encryptedData := [9], expiresAt := 99, isActive := true }

/-- An audit-log entry. -/
def logC : LogEntry := { id := 0, packageId := oid1, userId := none, message := .qrGenerated }

/-- A database with `pkgC`, its token `qrC` and the log entry `logC`. -/
def dbC : DB := { packages := [pkgC], qrcodes := [qrC], logs := [logC], nextId := 2 }

end CipherShip

namespace CipherShip.EncryptionService

/-- One `EncryptionService.encryptAES` call viewed as a call that could draw
on ambient entropy: the service samples no randomness (its key and IV are the
fixed module constants), so the entropy argument is unused and every call
computes the same ciphertext. -/
def encryptAESCall (_entropy : Nat) (data : Bytes) : Bytes :=
  encryptAES data

end CipherShip.EncryptionService

namespace CipherShip

/-! ## Claims -/

/-- C1: for every payload and key, decoding the envelope produced by encoding
returns exactly the original payload — for the AEAD codec
(`encryptAES`/`decryptAES` of `utils/encryption.js`), for the JSON-wrapping
`encryptCustomerData`/`decryptCustomerData` pair, and for the service-level
cipher pair (`EncryptionService.encryptAES`/`decryptAES`). -/
theorem C1_roundtrip :
    (∀ data key iv : Bytes, decryptAES (encryptAES data key iv) key = some data) ∧
    (∀ (d : List (Bytes × Bytes)) (key iv : Bytes),
      decryptCustomerData (encryptCustomerData d key iv) key = some d) ∧
    (∀ data : Bytes,
      EncryptionService.decryptAES (EncryptionService.encryptAES data) = some data) :=
  ⟨decryptAES_encryptAES, decryptCustomerData_encryptCustomerData,
   EncryptionService.decryptAES_encryptAES_cbc⟩

set_option maxRecDepth 200000 in
/-- C2 counterexample: the claim covers the service-level cipher
(`EncryptionService.decryptAES`), but that cipher is CBC with no
authentication tag: flipping bit 0 of byte 0 of a concrete 33-byte payload's
ciphertext still decrypts successfully — to a corrupted payload — instead of
always failing. -/
theorem C2_counterexample :
    (EncryptionService.decryptAES
      (flipBit (EncryptionService.encryptAES (List.range 33)) 0 0)).isSome = true ∧
    EncryptionService.decryptAES
      (flipBit (EncryptionService.encryptAES (List.range 33)) 0 0) ≠
      some (List.range 33) := by
  constructor
  · decide
  · decide

/-- C2 (amended): for the AEAD codec of `utils/encryption.js`, flipping any
bit of the ciphertext, or any bit of the authentication tag, of an envelope
makes `decryptAES` fail under the encoding key; the service-level CBC cipher
carries no tag and does not detect tampering. -/
theorem C2_amended :
    (∀ (data key iv : Bytes) (i j : Nat), (∀ b ∈ data, b < 256) →
      i < data.length → j < 8 →
      decryptAES { encryptAES data key iv with
        encryptedData := flipBit (encryptAES data key iv).encryptedData i j } key = none) ∧
    (∀ (data key iv : Bytes) (j : Nat),
      decryptAES { encryptAES data key iv with
        authTag := (encryptAES data key iv).authTag ^^^ 2 ^ j } key = none) :=
  ⟨decryptAES_flip_ciphertext, decryptAES_flip_authTag⟩

/-- Witness for C2 (amended) at a concrete payload, byte 1, bit 3. -/
theorem C2_amended_witness :
    (∀ b ∈ [1, 2, 3], b < 256) ∧ 1 < ([1, 2, 3] : Bytes).length ∧ 3 < 8 ∧
    decryptAES { encryptAES [1, 2, 3] [5] [7] with
      encryptedData := flipBit (encryptAES [1, 2, 3] [5] [7]).encryptedData 1 3 } [5] = none :=
  ⟨by decide, by decide, by decide,
   C2_amended.1 [1, 2, 3] [5] [7] 1 3 (by decide) (by decide) (by decide)⟩

set_option maxRecDepth 200000 in
/-- C3 counterexample: `QRCodeService.generateQRCode` never deactivates the
previously active token, so two issue calls on the same package leave two
simultaneously active tokens, violating the single-active-token invariant. -/
theorem C3_counterexample :
    activeTokenCount
      ((QRCodeService.generateQRCode
        ((QRCodeService.generateQRCode dbA oid1 0).2) oid1 0).2) oid1 = 2 := by
  decide

/-- C3 (amended): issuing a token appends a fresh active record and leaves
every prior token record — active ones included — untouched, so each issue
increases the number of active tokens for the package by one; the
at-most-one-active invariant is not enforced. -/
theorem C3_amended (db : DB) (pid : Bytes) (now : Nat) (p : PackageDoc)
    (hp : findPackage db pid = some p) :
    activeTokenCount (QRCodeService.generateQRCode db pid now).2 pid =
      activeTokenCount db pid + 1 ∧
    ∀ q ∈ db.qrcodes, q ∈ (QRCodeService.generateQRCode db pid now).2.qrcodes := by
  constructor
  · simp only [QRCodeService.generateQRCode, hp]
    simp [activeTokenCount, List.filter_append]
  · intro q hq
    simp only [QRCodeService.generateQRCode, hp]
    simp [hq]

/-- Witness for C3 (amended) on the concrete database `dbA`. -/
theorem C3_amended_witness :
    findPackage dbA oid1 = some pkgA ∧
    (activeTokenCount (QRCodeService.generateQRCode dbA oid1 0).2 oid1 =
      activeTokenCount dbA oid1 + 1 ∧
     ∀ q ∈ dbA.qrcodes, q ∈ (QRCodeService.generateQRCode dbA oid1 0).2.qrcodes) :=
  ⟨by decide, C3_amended dbA oid1 0 pkgA (by decide)⟩

set_option maxRecDepth 200000 in
/-- C4 counterexample: the spec's table has no `delivered → in-transit` edge,
yet `updatePackageStatus` accepts it: the delivered package's status changes
to `in-transit` and its history grows, instead of an `InvalidTransition`
rejection leaving everything unchanged. -/
theorem C4_counterexample :
    specLegalEdge .delivered .inTransit = false ∧
    pkgD.status = .delivered ∧
    (PackageController.updatePackageStatus dbD oid1 .inTransit oid2 5).1 = .ok pkgDafter ∧
    pkgDafter.status = .inTransit ∧
    pkgDafter.statusHistory.length = pkgD.statusHistory.length + 1 := by
  refine ⟨by decide, by decide, by decide, by decide, by decide⟩

/-- C4 (amended): the controller checks only membership in its
`validStatuses` list, not the transition table: a request for `cancelled`
(or any value outside the list) is rejected with the state unchanged, while
any listed status is accepted from every current status — the status is
overwritten and one history entry is appended whenever the value changed. -/
theorem C4_amended (db : DB) (id : Bytes) (s : Status) (uid : Bytes) (now : Nat)
    (p : PackageDoc) (hid : isValidObjectId id = true)
    (hp : findPackage db id = some p) :
    (s = .cancelled →
      PackageController.updatePackageStatus db id s uid now = (.invalidStatus, db)) ∧
    (s ≠ .cancelled → ∃ p1,
      (PackageController.updatePackageStatus db id s uid now).1 = .ok p1 ∧
      p1.status = s ∧
      p1.statusHistory.length =
        p.statusHistory.length + (if s = p.status then 0 else 1)) := by
  constructor
  · intro hs
    subst hs
    simp only [PackageController.updatePackageStatus, hid]
    simp [validStatuses]
  · intro hs
    have hmem : s ∈ validStatuses := by
      cases s <;> simp_all [validStatuses]
    simp only [PackageController.updatePackageStatus, hid]
    rw [if_neg (by simp), if_neg (by simp [hmem]), hp]
    refine ⟨preSave now (decide (s ≠ p.status)) { p with status := s }, rfl, ?_, ?_⟩
    · by_cases hss : s = p.status <;> simp [preSave, hss]
    · by_cases hss : s = p.status
      · simp [preSave, hss]
      · simp [preSave, hss]

/-- Witness for C4 (amended): `in-transit` requested on the delivered
package of `dbD`. -/
theorem C4_amended_witness :
    isValidObjectId oid1 = true ∧ findPackage dbD oid1 = some pkgD ∧
    (((.inTransit : Status) = .cancelled →
      PackageController.updatePackageStatus dbD oid1 .inTransit oid2 5 = (.invalidStatus, dbD)) ∧
     ((.inTransit : Status) ≠ .cancelled → ∃ p1,
      (PackageController.updatePackageStatus dbD oid1 .inTransit oid2 5).1 = .ok p1 ∧
      p1.status = .inTransit ∧
      p1.statusHistory.length =
        pkgD.statusHistory.length + (if Status.inTransit = pkgD.status then 0 else 1))) :=
  ⟨by decide, by decide, C4_amended dbD oid1 .inTransit oid2 5 pkgD (by decide) (by decide)⟩

set_option maxRecDepth 200000 in
/-- C5 counterexample: an expired but still-stored token (`qrB`, expired at
time 5, scanned at time 10) is decoded successfully by the controller's
`scanQRCode`, which never consults the token record: the decrypted payload is
returned instead of an `ExpiredToken` failure. -/
theorem C5_counterexample :
    qrB.expiresAt < 10 ∧ qrB ∈ dbB.qrcodes ∧
    (QRCodeController.scanQRCode dbB .deliveryAgent oid2 qrB.encryptedData).1 =
      .ok [(kPackageId, oid1)] pkgA := by
  refine ⟨by decide, by decide, by decide⟩

/-- C5 (amended): expiry is enforced only on the `qrCodeService.decodeQRCode`
path: there, a token past its `expiresAt` yields the expired error when it is
still active, and never yields a decoded payload; the controller's
`scanQRCode` path performs no expiry check at all. -/
theorem C5_amended (db : DB) (data userId : Bytes) (now : Nat) (qr : QRCodeDoc)
    (hq : findQRCodeByData db data = some qr) (hexp : qr.expiresAt < now) :
    (qr.isActive = true →
      QRCodeService.decodeQRCode db data userId now = (.expired, db)) ∧
    (∀ plain db2, QRCodeService.decodeQRCode db data userId now ≠ (.ok plain, db2)) := by
  constructor
  · intro hact
    simp only [QRCodeService.decodeQRCode, hq, hact]
    simp [hexp]
  · intro plain db2
    simp only [QRCodeService.decodeQRCode, hq]
    cases hact : qr.isActive
    · simp
    · simp [hexp]

/-- Witness for C5 (amended) on the expired token `qrB` at time 10. -/
theorem C5_amended_witness :
    findQRCodeByData dbB qrB.encryptedData = some qrB ∧ qrB.expiresAt < 10 ∧
    ((qrB.isActive = true →
      QRCodeService.decodeQRCode dbB qrB.encryptedData oid2 10 = (.expired, dbB)) ∧
     (∀ plain db2,
      QRCodeService.decodeQRCode dbB qrB.encryptedData oid2 10 ≠ (.ok plain, db2))) :=
  ⟨by decide, by decide, C5_amended dbB qrB.encryptedData oid2 10 qrB (by decide) (by decide)⟩

set_option maxRecDepth 200000 in
/-- C6 counterexample: an unauthorized scan attempt (role `customer`) is
rejected without writing any scan log entry, so the failing branch writes
zero entries, not exactly one. -/
theorem C6_counterexample :
    (QRCodeController.scanQRCode dbB .customer oid2 qrB.encryptedData).1 = .notAuthorized ∧
    (QRCodeController.scanQRCode dbB .customer oid2 qrB.encryptedData).2.logs = dbB.logs := by
  refine ⟨by decide, by decide⟩

/-- C6 (amended): only the fully successful scan branch writes a log entry
(exactly one); every failing branch — unauthorized role, decrypt/parse/cast
failure, package not found — writes none, and `verifyQRCode` writes nothing
on any branch. -/
theorem C6_amended (db : DB) (role : Role) (uid data : Bytes) :
    (∀ out db2, QRCodeController.scanQRCode db role uid data = (out, db2) →
      db2.logs.length = db.logs.length + scanLogDelta out) ∧
    (QRCodeController.verifyQRCode db data).2 = db := by
  constructor
  · intro out db2 h
    simp only [QRCodeController.scanQRCode] at h
    repeat' split at h
    all_goals (cases h; simp [scanLogDelta])
  · simp only [QRCodeController.verifyQRCode]
    repeat' split
    all_goals rfl

/-- Witness for C6 (amended) on a concrete failing scan. -/
theorem C6_amended_witness :
    ((∀ out db2, QRCodeController.scanQRCode dbB .customer oid2 [0] = (out, db2) →
      db2.logs.length = dbB.logs.length + scanLogDelta out) ∧
     (QRCodeController.verifyQRCode dbB [0]).2 = dbB) :=
  C6_amended dbB .customer oid2 [0]

/-- C7 counterexample: the service-level encode (`EncryptionService`) uses
the fixed configured IV and draws no randomness, so two separate calls (any
two entropy draws) produce the same ciphertext — not different IVs and
ciphertexts. -/
theorem C7_counterexample :
    (0 : Nat) ≠ 1 ∧
    EncryptionService.encryptAESCall 0 (List.range 5) =
      EncryptionService.encryptAESCall 1 (List.range 5) :=
  ⟨by decide, rfl⟩

/-- C7 (amended): the utility codec (`utils/encryption.js`) threads the fresh
per-call IV into the envelope, so calls with distinct fresh IVs produce
envelopes with distinct IVs; the service-level cipher ignores call-site
entropy entirely and is deterministic across calls. -/
theorem C7_amended :
    (∀ (data key iv1 iv2 : Bytes), iv1 ≠ iv2 →
      (encryptAES data key iv1).iv ≠ (encryptAES data key iv2).iv) ∧
    (∀ (e1 e2 : Nat) (data : Bytes),
      EncryptionService.encryptAESCall e1 data = EncryptionService.encryptAESCall e2 data) := by
  constructor
  · intro data key iv1 iv2 hne
    simpa [encryptAES] using hne
  · intro e1 e2 data
    rfl

/-- Witness for C7 (amended) at two concrete distinct IVs. -/
theorem C7_amended_witness :
    ([0] : Bytes) ≠ [1] ∧
    (encryptAES [] [] [0]).iv ≠ (encryptAES [] [] [1]).iv :=
  ⟨by decide, C7_amended.1 [] [] [0] [1] (by decide)⟩

set_option maxRecDepth 200000 in
/-- C8 counterexample: a cryptographic failure (undecryptable input `[0]`)
and a lookup failure (well-formed token for an unknown package) produce
different responses — 400 `Invalid QR code data` versus 404
`Associated package not found` — and neither failure reason is recorded in
any audit log. -/
theorem C8_counterexample :
    (QRCodeController.scanQRCode dbB .admin oid2 [0]).1 = .invalidData ∧
    (QRCodeController.scanQRCode dbB .admin oid2 encUnknown).1 = .packageNotFound ∧
    QRCodeController.scanStatus .invalidData = 400 ∧
    QRCodeController.scanStatus .packageNotFound = 404 ∧
    (QRCodeController.scanQRCode dbB .admin oid2 [0]).2.logs = dbB.logs ∧
    (QRCodeController.scanQRCode dbB .admin oid2 encUnknown).2.logs = dbB.logs := by
  refine ⟨by decide, by decide, rfl, rfl, by decide, by decide⟩

/-- C8 (amended): decrypt/parse/cast failures are flattened to the generic
400 invalid-data response, but an unknown package yields a distinguishable
404 response; no failure branch records its reason anywhere (the state is
returned unchanged). -/
theorem C8_amended (db : DB) (role : Role) (uid data : Bytes)
    (hrole : role = .admin ∨ role = .deliveryAgent) :
    (EncryptionService.decryptAES data = none →
      QRCodeController.scanQRCode db role uid data = (.invalidData, db)) ∧
    (∀ plain kvs pid, EncryptionService.decryptAES data = some plain →
      jsonParse plain = some kvs → getKV kvs kPackageId = some pid →
      isValidObjectId pid = true → findPackage db pid = none →
      QRCodeController.scanQRCode db role uid data = (.packageNotFound, db)) ∧
    QRCodeController.scanStatus .invalidData ≠
      QRCodeController.scanStatus .packageNotFound := by
  have hnrole : ¬(role ≠ Role.admin ∧ role ≠ Role.deliveryAgent) := by
    rcases hrole with h | h <;> simp [h]
  refine ⟨?_, ?_, by decide⟩
  · intro hdec
    simp only [QRCodeController.scanQRCode, if_neg hnrole, hdec]
  · intro plain kvs pid h1 h2 h3 h4 h5
    simp only [QRCodeController.scanQRCode, if_neg hnrole, h1, h2, h3, h4, h5]
    simp

/-- Witness for C8 (amended) with the admin role and the undecryptable
input `[0]`. -/
theorem C8_amended_witness :
    ((Role.admin = Role.admin ∨ Role.admin = Role.deliveryAgent) ∧
     EncryptionService.decryptAES [0] = none ∧
     QRCodeController.scanQRCode dbB .admin oid2 [0] = (.invalidData, dbB)) :=
  ⟨Or.inl rfl, by decide,
   (C8_amended dbB .admin oid2 [0] (Or.inl rfl)).1 (by decide)⟩

set_option maxRecDepth 200000 in
/-- C9 counterexample: `invalidateQRCode` deletes the old token record
outright (`findByIdAndDelete`) rather than flipping `isActive`, and
`deleteTrackingEvent` deletes an audit record — both contradict
"never deleted". -/
theorem C9_counterexample :
    (qrC ∈ dbC.qrcodes ∧
     ∀ q ∈ (QRCodeController.invalidateQRCode dbC oid1 oid2 50).2.qrcodes, q.id ≠ 1) ∧
    (logC ∈ dbC.logs ∧
     (TrackingController.deleteTrackingEvent dbC 0).2.logs = []) := by
  decide

/-- C9 (amended): `invalidateQRCode` removes the package's old token record
from the collection and inserts a fresh active one in its place, and
`deleteTrackingEvent` removes the addressed audit record from the log
collection. -/
theorem C9_amended (db : DB) (pid uid : Bytes) (now : Nat) (p : PackageDoc) (qid : Nat)
    (hid : isValidObjectId pid = true) (hp : findPackage db pid = some p)
    (hq : p.qrCodeId = some qid) (hfresh : qid ≠ db.nextId) :
    ((QRCodeController.invalidateQRCode db pid uid now).2.qrcodes.filter
        (fun q => decide (q.id = qid))) = [] ∧
    (∃ q ∈ (QRCodeController.invalidateQRCode db pid uid now).2.qrcodes,
      q.id = db.nextId ∧ q.isActive = true) ∧
    (∀ lid l, db.logs.find? (fun x => decide (x.id = lid)) = some l →
      (TrackingController.deleteTrackingEvent db lid).2.logs =
        db.logs.filter (fun x => decide (x.id ≠ lid))) := by
  refine ⟨?_, ?_, ?_⟩
  · simp only [QRCodeController.invalidateQRCode, hid, hp, hq, updatePackage]
    simp only [Bool.true_eq_false, if_false]
    simp only [List.filter_append, List.filter_filter]
    have h1 : ∀ q : QRCodeDoc, (decide (q.id = qid) && decide (q.id ≠ qid)) = false := by
      intro q; by_cases h : q.id = qid <;> simp [h]
    have h2 : (decide (db.nextId = qid)) = false := by
      simp [Ne.symm hfresh]
    simp [h1, h2]
  · simp only [QRCodeController.invalidateQRCode, hid, hp, hq, updatePackage]
    simp only [Bool.true_eq_false, if_false]
    refine ⟨_, List.mem_append_right _ (List.mem_singleton.mpr rfl), rfl, rfl⟩
  · intro lid l hfind
    simp only [TrackingController.deleteTrackingEvent, hfind]

set_option maxRecDepth 200000 in
/-- Witness for C9 (amended) on the concrete database `dbC`. -/
theorem C9_amended_witness :
    isValidObjectId oid1 = true ∧ findPackage dbC oid1 = some pkgC ∧
    pkgC.qrCodeId = some 1 ∧ (1 : Nat) ≠ dbC.nextId ∧
    (((QRCodeController.invalidateQRCode dbC oid1 oid2 50).2.qrcodes.filter
        (fun q => decide (q.id = 1))) = [] ∧
     (∃ q ∈ (QRCodeController.invalidateQRCode dbC oid1 oid2 50).2.qrcodes,
       q.id = dbC.nextId ∧ q.isActive = true) ∧
     (∀ lid l, dbC.logs.find? (fun x => decide (x.id = lid)) = some l →
       (TrackingController.deleteTrackingEvent dbC lid).2.logs =
         dbC.logs.filter (fun x => decide (x.id ≠ lid)))) :=
  ⟨by decide, by decide, by decide, by decide,
   C9_amended dbC oid1 oid2 50 pkgC 1 (by decide) (by decide) (by decide) (by decide)⟩

/-- C10: the pre-save hook appends exactly one history entry carrying the
new status (and refreshes `updatedAt`) when the status path was modified, and
leaves the history untouched otherwise — so after a status-modifying save the
stored status and the last history entry agree. -/
theorem C10_preSave (now : Nat) (p : PackageDoc) :
    (preSave now true p).statusHistory =
      p.statusHistory ++ [{ status := p.status, timestamp := now }] ∧
    (preSave now true p).updatedAt = now ∧
    (preSave now true p).status = p.status ∧
    (currentStatus (preSave now true p)).1 = (preSave now true p).status ∧
    (preSave now false p).statusHistory = p.statusHistory ∧
    (preSave now false p).updatedAt = now := by
  refine ⟨rfl, rfl, rfl, ?_, rfl, rfl⟩
  simp [preSave, currentStatus, List.getLast?_concat]

end CipherShip
